import Mathlib

set_option maxHeartbeats 1600000

deriving instance DecidableEq for Except

/-!
Shallow embedding of the page-replacement simulator (FIFO / LRU / OPT policies).

Pages are Python ints, modelled as `Int`.  Each policy instance is an
`AlgState` (frame capacity, cumulative fault count, ordered list of resident
pages).  Python exceptions (`IndexError` from `list.pop(0)` on an empty list,
`ValueError` from `list.remove` of an absent element) abort the computation
but leave the already-performed mutations on the instance; we model an insert
as `Except AlgState AlgState`, where the `error` branch carries the state of
the instance at the moment the exception is raised.
-/

/-- State of a `ReplacementAlgorithm` instance: the fixed frame capacity
`page_frame_count`, the cumulative `page_fault_count`, and the ordered list
`page_frames` of currently resident pages. -/
structure AlgState where
  page_frame_count : Nat
  page_fault_count : Nat
  page_frames : List Int
  deriving DecidableEq, Repr

/-- Embedding of `ReplacementAlgorithm.__init__`: a negative page-frame count raises
`ValueError("Page frame count cannot be negative")`, modelled as
`Except.error ()`; otherwise the instance starts with zero page faults and an
empty frame list. -/
def initAlgorithm (page_frame_count : Int) : Except Unit AlgState :=
  if page_frame_count < 0 then Except.error ()
  else Except.ok ⟨page_frame_count.toNat, 0, []⟩

/-- Embedding of `FIFOReplacementAlgorithm.insert`.  A resident page is a no-op; a
non-resident page increments the fault count, pops the head when the frame
list has reached capacity (raising `IndexError` if the list is empty — the
error carries the mutated state), and appends the page at the tail. -/
def fifoInsert (s : AlgState) (page_number : Int) : Except AlgState AlgState :=
  if page_number ∈ s.page_frames then Except.ok s
  else
    let fc := s.page_fault_count + 1
    if s.page_frame_count ≤ s.page_frames.length then
      match s.page_frames with
      | [] => Except.error ⟨s.page_frame_count, fc, []⟩
      | _ :: rest => Except.ok ⟨s.page_frame_count, fc, rest ++ [page_number]⟩
    else Except.ok ⟨s.page_frame_count, fc, s.page_frames ++ [page_number]⟩

/-- Embedding of `LRUReplacementAlgorithm.insert`.  Same fault path as FIFO; on a
re-access of a resident page, `list.remove` + `append` moves the page to the
tail (most-recent) position without touching the fault count. -/
def lruInsert (s : AlgState) (page_number : Int) : Except AlgState AlgState :=
  if page_number ∈ s.page_frames then
    Except.ok ⟨s.page_frame_count, s.page_fault_count,
      (s.page_frames.erase page_number) ++ [page_number]⟩
  else
    let fc := s.page_fault_count + 1
    if s.page_frame_count ≤ s.page_frames.length then
      match s.page_frames with
      | [] => Except.error ⟨s.page_frame_count, fc, []⟩
      | _ :: rest => Except.ok ⟨s.page_frame_count, fc, rest ++ [page_number]⟩
    else Except.ok ⟨s.page_frame_count, fc, s.page_frames ++ [page_number]⟩

/-- The victim-selection loop of `OPTReplacementAlgorithm.insert`
(`furthest_use` / `page_to_remove` accumulators, both starting at `-1`):
the first frame absent from `future_references` wins immediately (`break`);
otherwise the frame whose `future_references.index` is strictly largest is
retained. -/
def optLoop (frames future : List Int) (furthest_use page_to_remove : Int) :
    Int × Int :=
  match frames with
  | [] => (furthest_use, page_to_remove)
  | frame :: rest =>
    if frame ∈ future then
      let next_use : Int := future.indexOf frame
      if furthest_use < next_use then optLoop rest future next_use frame
      else optLoop rest future furthest_use page_to_remove
    else (furthest_use, frame)

/-- The page chosen for eviction by the OPT loop (`page_to_remove` after the
loop, starting from the sentinels `-1`, `-1`). -/
def optVictim (frames future : List Int) : Int :=
  (optLoop frames future (-1) (-1)).2

/-- Embedding of `OPTReplacementAlgorithm.insert`.  On a fault at capacity the victim from
`optLoop` is removed with `list.remove`, which raises `ValueError` when the
computed victim (possibly the `-1` sentinel) is not in the frame list; the
error carries the mutated state. -/
def optInsert (s : AlgState) (page_number : Int) (future_references : List Int) :
    Except AlgState AlgState :=
  if page_number ∈ s.page_frames then Except.ok s
  else
    let fc := s.page_fault_count + 1
    if s.page_frame_count ≤ s.page_frames.length then
      let v := optVictim s.page_frames future_references
      if v ∈ s.page_frames then
        Except.ok ⟨s.page_frame_count, fc, (s.page_frames.erase v) ++ [page_number]⟩
      else Except.error ⟨s.page_frame_count, fc, s.page_frames⟩
    else Except.ok ⟨s.page_frame_count, fc, s.page_frames ++ [page_number]⟩

/-- The loop of `run_algorithm`: feed each page of the reference string to
`step`, handing it the remaining suffix (the slice
`future_references[i+1:]` when the driver is called with
`future_references = reference_string`).  A raised exception aborts the
loop. -/
def runPolicy (step : AlgState → Int → List Int → Except AlgState AlgState) :
    AlgState → List Int → Except AlgState AlgState
  | s, [] => Except.ok s
  | s, page :: rest =>
    match step s page rest with
    | Except.ok s' => runPolicy step s' rest
    | Except.error e => Except.error e

/-- Body of `run_algorithm(FIFOReplacementAlgorithm, ...)` after construction. -/
def runFIFO (s : AlgState) (reference_string : List Int) : Except AlgState AlgState :=
  runPolicy (fun s' page _ => fifoInsert s' page) s reference_string

/-- Body of `run_algorithm(LRUReplacementAlgorithm, ...)` after construction. -/
def runLRU (s : AlgState) (reference_string : List Int) : Except AlgState AlgState :=
  runPolicy (fun s' page _ => lruInsert s' page) s reference_string

/-- Body of `run_algorithm(OPTReplacementAlgorithm, ..., future_references =
reference_string)` body after construction: at position `i` the lookahead is
`reference_string[i+1:]`, i.e. the remaining suffix. -/
def runOPT (s : AlgState) (reference_string : List Int) : Except AlgState AlgState :=
  runPolicy optInsert s reference_string

/-- Fault count of `run_algorithm(FIFOReplacementAlgorithm, rs, c)`. -/
def faultsFIFO (reference_string : List Int) (c : Nat) : Except AlgState Nat :=
  (runFIFO ⟨c, 0, []⟩ reference_string).map AlgState.page_fault_count

/-- Fault count of `run_algorithm(LRUReplacementAlgorithm, rs, c)`. -/
def faultsLRU (reference_string : List Int) (c : Nat) : Except AlgState Nat :=
  (runLRU ⟨c, 0, []⟩ reference_string).map AlgState.page_fault_count

/-- Fault count of `run_algorithm(OPTReplacementAlgorithm, rs, c,
future_references = rs)`. -/
def faultsOPT (reference_string : List Int) (c : Nat) : Except AlgState Nat :=
  (runOPT ⟨c, 0, []⟩ reference_string).map AlgState.page_fault_count

/-- An arbitrary sequence of `OPTReplacementAlgorithm.insert` calls, each with
its own lookahead argument. -/
def insertSeqOPT : AlgState → List (Int × List Int) → Except AlgState AlgState
  | s, [] => Except.ok s
  | s, (page, future) :: rest =>
    match optInsert s page future with
    | Except.ok s' => insertSeqOPT s' rest
    | Except.error e => Except.error e

example : faultsFIFO [7, 0, 1, 2, 0, 3, 0, 4, 2, 3, 0, 3, 2, 1, 2, 0, 1, 7, 0, 1] 3 =
    Except.ok 15 := by decide

example : faultsLRU [7, 0, 1, 2, 0, 3, 0, 4, 2, 3, 0, 3, 2, 1, 2, 0, 1, 7, 0, 1] 3 =
    Except.ok 12 := by decide

example : faultsOPT [7, 0, 1, 2, 0, 3, 0, 4, 2, 3, 0, 3, 2, 1, 2, 0, 1, 7, 0, 1] 3 =
    Except.ok 9 := by decide

example : faultsFIFO [4, 6, 4, 8, 6, 3, 6, 0, 5, 9, 2, 1, 0, 4, 6, 3, 0, 6, 8, 4] 4 =
    Except.ok 14 := by decide

example : faultsLRU [4, 6, 4, 8, 6, 3, 6, 0, 5, 9, 2, 1, 0, 4, 6, 3, 0, 6, 8, 4] 4 =
    Except.ok 15 := by decide

example : faultsOPT [4, 6, 4, 8, 6, 3, 6, 0, 5, 9, 2, 1, 0, 4, 6, 3, 0, 6, 8, 4] 4 =
    Except.ok 11 := by decide

/-! ## Timestamped FIFO model -/

/-- The state `AlgState` instrumented with the access index at which each resident page
was inserted, used to express that FIFO evicts the earliest-inserted resident
page. -/
structure TAlgState where
  page_frame_count : Nat
  page_fault_count : Nat
  page_frames : List (Int × Nat)
  deriving DecidableEq, Repr

/-- Forget the insertion timestamps. -/
def projT (s : TAlgState) : AlgState :=
  ⟨s.page_frame_count, s.page_fault_count, s.page_frames.map Prod.fst⟩

/-- Forget the timestamps on either branch of an insert result. -/
def projTE (r : Except TAlgState TAlgState) : Except AlgState AlgState :=
  match r with
  | Except.ok s => Except.ok (projT s)
  | Except.error s => Except.error (projT s)

/-- The step `fifoInsert` carrying the current access index `now` as the timestamp of
a newly inserted page; erasing timestamps recovers `fifoInsert` exactly. -/
def fifoInsertTimed (s : TAlgState) (page_number : Int) (now : Nat) :
    Except TAlgState TAlgState :=
  if page_number ∈ s.page_frames.map Prod.fst then Except.ok s
  else
    let fc := s.page_fault_count + 1
    if s.page_frame_count ≤ s.page_frames.length then
      match s.page_frames with
      | [] => Except.error ⟨s.page_frame_count, fc, []⟩
      | _ :: rest => Except.ok ⟨s.page_frame_count, fc, rest ++ [(page_number, now)]⟩
    else Except.ok ⟨s.page_frame_count, fc, s.page_frames ++ [(page_number, now)]⟩

/-- The FIFO run with access indices counted from `i`. -/
def runFIFOTimed : TAlgState → Nat → List Int → Except TAlgState TAlgState
  | s, _, [] => Except.ok s
  | s, i, page :: rest =>
    match fifoInsertTimed s page i with
    | Except.ok s' => runFIFOTimed s' (i + 1) rest
    | Except.error e => Except.error e

/-! ## Nondeterministic demand paging -/

/-- Nondeterministic demand-paging execution over caches viewed as finite
sets: `Exec c σ C k` holds when some demand schedule with capacity `c`
processes the request list `σ` starting from resident set `C` with exactly
`k` faults; on a miss at capacity an arbitrary resident page is evicted.
The FIFO, LRU and OPT runs all induce such executions. -/
inductive Exec (c : Nat) : List Int → Finset Int → Nat → Prop where
  | nil : ∀ C, Exec c [] C 0
  | hit : ∀ q σ C k, q ∈ C → Exec c σ C k → Exec c (q :: σ) C k
  | missAdd : ∀ q σ C k, q ∉ C → C.card < c → Exec c σ (insert q C) k →
      Exec c (q :: σ) C (k + 1)
  | missEvict : ∀ q σ C k y, q ∉ C → c ≤ C.card → y ∈ C →
      Exec c σ (insert q (C.erase y)) k → Exec c (q :: σ) C (k + 1)

/-- Invariant `StateInv c s`: the shape every reachable instance keeps — fixed capacity `c`,
Frame Set within capacity and duplicate-free. -/
def StateInv (c : Nat) (s : AlgState) : Prop :=
  s.page_frame_count = c ∧ s.page_frames.length ≤ c ∧ s.page_frames.Nodup

/-- Invariant of the timed FIFO run: fixed capacity, timestamps strictly
increasing along the frame list (head oldest), all timestamps below the
current access index. -/
def TimedInv (c i : Nat) (s : TAlgState) : Prop :=
  s.page_frame_count = c ∧ s.page_frames.Pairwise (fun a b => a.2 < b.2) ∧
    ∀ x ∈ s.page_frames, x.2 < i

/-! ## Helper lemmas on lists and finsets -/

theorem toFinset_concat (l : List Int) (a : Int) :
    (l ++ [a]).toFinset = insert a l.toFinset := by
  ext x
  simp [or_comm]

theorem toFinset_erase_of_nodup (l : List Int) (a : Int) (h : l.Nodup) :
    (l.erase a).toFinset = l.toFinset.erase a := by
  ext x
  simp [List.Nodup.mem_erase_iff h, Finset.mem_erase]

/-! ## The OPT victim-selection loop -/

/-- If a frame absent from the lookahead exists, the loop breaks at the first
one, whatever the accumulators hold. -/
theorem optLoop_break (l1 : List Int) :
    ∀ w l2 future fu tr, (∀ x ∈ l1, x ∈ future) → w ∉ future →
      (optLoop (l1 ++ w :: l2) future fu tr).2 = w := by
  induction l1 with
  | nil =>
    intro w l2 future fu tr _ hw
    simp [optLoop, hw]
  | cons x l1 ih =>
    intro w l2 future fu tr h1 hw
    have hx : x ∈ future := h1 x (List.mem_cons_self x l1)
    simp only [List.cons_append, optLoop, if_pos hx]
    split
    · exact ih w l2 future _ _ (fun y hy => h1 y (List.mem_cons_of_mem x hy)) hw
    · exact ih w l2 future _ _ (fun y hy => h1 y (List.mem_cons_of_mem x hy)) hw

/-- When every frame occurs in the lookahead, the loop computes a running
strict maximum of next-use indices. -/
theorem optLoop_all_in (frames : List Int) :
    ∀ future fu tr, (∀ f ∈ frames, f ∈ future) →
      (∀ f ∈ frames, (future.indexOf f : Int) ≤ (optLoop frames future fu tr).1) ∧
      fu ≤ (optLoop frames future fu tr).1 ∧
      (((optLoop frames future fu tr).1 = fu ∧ (optLoop frames future fu tr).2 = tr) ∨
        ((optLoop frames future fu tr).2 ∈ frames ∧
          (optLoop frames future fu tr).1 =
            (future.indexOf (optLoop frames future fu tr).2 : Int))) := by
  induction frames with
  | nil =>
    intro future fu tr _
    refine ⟨by simp, ?_, Or.inl ⟨rfl, rfl⟩⟩
    simp [optLoop]
  | cons f rest ih =>
    intro future fu tr hall
    have hf : f ∈ future := hall f (List.mem_cons_self f rest)
    have hrest : ∀ g ∈ rest, g ∈ future := fun g hg => hall g (List.mem_cons_of_mem f hg)
    simp only [optLoop, if_pos hf]
    by_cases hlt : fu < (future.indexOf f : Int)
    · rw [if_pos hlt]
      obtain ⟨hbound, hmono, hshape⟩ := ih future (future.indexOf f : Int) f hrest
      refine ⟨?_, by omega, ?_⟩
      · intro g hg
        rcases List.mem_cons.mp hg with hgf | hgr
        · subst hgf; omega
        · exact hbound g hgr
      · rcases hshape with ⟨he1, he2⟩ | ⟨hm, he⟩
        · exact Or.inr ⟨by rw [he2]; exact List.mem_cons_self f rest, by rw [he1, he2]⟩
        · exact Or.inr ⟨List.mem_cons_of_mem f hm, he⟩
    · rw [if_neg hlt]
      obtain ⟨hbound, hmono, hshape⟩ := ih future fu tr hrest
      refine ⟨?_, hmono, ?_⟩
      · intro g hg
        rcases List.mem_cons.mp hg with hgf | hgr
        · subst hgf; omega
        · exact hbound g hgr
      · rcases hshape with ⟨he1, he2⟩ | ⟨hm, he⟩
        · exact Or.inl ⟨he1, he2⟩
        · exact Or.inr ⟨List.mem_cons_of_mem f hm, he⟩

/-- Any list with an element absent from `future` splits at the first such
element. -/
theorem exists_first_absent :
    ∀ (frames future : List Int), (¬ ∀ f ∈ frames, f ∈ future) →
      ∃ l1 w l2, frames = l1 ++ w :: l2 ∧ (∀ x ∈ l1, x ∈ future) ∧ w ∉ future := by
  intro frames
  induction frames with
  | nil => intro future h; exact absurd (by simp) h
  | cons f rest ih =>
    intro future h
    by_cases hf : f ∈ future
    · have hrest : ¬ ∀ g ∈ rest, g ∈ future := by
        intro hall
        exact h (by
          intro g hg
          rcases List.mem_cons.mp hg with hgf | hgr
          · subst hgf; exact hf
          · exact hall g hgr)
      obtain ⟨l1, w, l2, heq, hl1, hw⟩ := ih future hrest
      refine ⟨f :: l1, w, l2, by rw [heq, List.cons_append], ?_, hw⟩
      intro x hx
      rcases List.mem_cons.mp hx with hxf | hxl
      · subst hxf; exact hf
      · exact hl1 x hxl
    · exact ⟨[], f, rest, rfl, by simp, hf⟩

/-- Victim selection when some frame never occurs again: the first such frame
in frame-list order. -/
theorem optVictim_of_absent (l1 : List Int) (w : Int) (l2 future : List Int)
    (hl1 : ∀ x ∈ l1, x ∈ future) (hw : w ∉ future) :
    optVictim (l1 ++ w :: l2) future = w :=
  optLoop_break l1 w l2 future (-1) (-1) hl1 hw

/-- Victim selection when every frame occurs again: a resident frame whose
next-use index dominates all others. -/
theorem optVictim_of_all_in (frames future : List Int)
    (hall : ∀ f ∈ frames, f ∈ future) (hne : frames ≠ []) :
    optVictim frames future ∈ frames ∧
      ∀ f ∈ frames, future.indexOf f ≤ future.indexOf (optVictim frames future) := by
  obtain ⟨hbound, _, hshape⟩ := optLoop_all_in frames future (-1) (-1) hall
  rcases hshape with ⟨he1, _⟩ | ⟨hm, he⟩
  · obtain ⟨f0, hf0⟩ : ∃ f0, f0 ∈ frames := by
      cases frames with
      | nil => exact absurd rfl hne
      | cons a t => exact ⟨a, List.mem_cons_self a t⟩
    have := hbound f0 hf0
    omega
  · refine ⟨hm, ?_⟩
    intro f hf
    have h1 := hbound f hf
    rw [he] at h1
    exact_mod_cast h1

/-- The OPT victim is always a resident frame (when any frame is resident). -/
theorem optVictim_mem (frames future : List Int) (hne : frames ≠ []) :
    optVictim frames future ∈ frames := by
  by_cases hall : ∀ f ∈ frames, f ∈ future
  · exact (optVictim_of_all_in frames future hall hne).1
  · obtain ⟨l1, w, l2, heq, hl1, hw⟩ := exists_first_absent frames future hall
    rw [heq, optVictim_of_absent l1 w l2 future hl1 hw]
    exact List.mem_append.mpr (Or.inr (List.mem_cons_self w l2))

/-- Any other resident frame that is reused no later than the victim: if the
victim itself occurs in the lookahead, every other resident frame occurs there
strictly earlier. -/
theorem optVictim_best (frames future : List Int) (hne : frames ≠ [])
    (y : Int) (hy : y ∈ frames) (hyne : y ≠ optVictim frames future)
    (hvf : optVictim frames future ∈ future) :
    y ∈ future ∧ future.indexOf y < future.indexOf (optVictim frames future) := by
  by_cases hall : ∀ f ∈ frames, f ∈ future
  · obtain ⟨hm, hmax⟩ := optVictim_of_all_in frames future hall hne
    have hle := hmax y hy
    have hyf : y ∈ future := hall y hy
    refine ⟨hyf, lt_of_le_of_ne hle ?_⟩
    intro heq
    exact hyne ((List.indexOf_inj hyf hvf).mp heq)
  · obtain ⟨l1, w, l2, heq, hl1, hw⟩ := exists_first_absent frames future hall
    have : optVictim frames future = w := by
      rw [heq]; exact optVictim_of_absent l1 w l2 future hl1 hw
    rw [this] at hvf
    exact absurd hvf hw

/-! ## Claim theorems: single-insert behaviour -/

/-- Claim C1: when `insert(page, lookahead)` hits a non-resident page with the
Frame Set at full capacity (and non-empty), OPT evicts exactly
`optVictim`, replacing it by the new page at the tail; and that victim is the
first resident frame (in Frame Set iteration order) that does not occur in
the lookahead when such a frame exists, and otherwise a resident frame whose
next-occurrence index in the lookahead is the largest. -/
theorem opt_eviction (s : AlgState) (p : Int) (future : List Int)
    (hp : p ∉ s.page_frames) (hfull : s.page_frame_count ≤ s.page_frames.length)
    (hne : s.page_frames ≠ []) :
    optInsert s p future =
      Except.ok ⟨s.page_frame_count, s.page_fault_count + 1,
        (s.page_frames.erase (optVictim s.page_frames future)) ++ [p]⟩ ∧
    (∀ l1 w l2, s.page_frames = l1 ++ w :: l2 → (∀ x ∈ l1, x ∈ future) →
      w ∉ future → optVictim s.page_frames future = w) ∧
    ((∀ f ∈ s.page_frames, f ∈ future) →
      optVictim s.page_frames future ∈ s.page_frames ∧
      ∀ f ∈ s.page_frames, future.indexOf f ≤
        future.indexOf (optVictim s.page_frames future)) := by
  refine ⟨?_, ?_, ?_⟩
  · rw [optInsert, if_neg hp, if_pos hfull,
      if_pos (optVictim_mem s.page_frames future hne)]
  · intro l1 w l2 heq hl1 hw
    rw [heq]
    exact optVictim_of_absent l1 w l2 future hl1 hw
  · intro hall
    exact optVictim_of_all_in s.page_frames future hall hne

theorem opt_eviction_witness :
    (6 : Int) ∉ [(4 : Int), 5] ∧
    (optInsert ⟨2, 0, [4, 5]⟩ 6 [5, 4, 9] =
      Except.ok ⟨2, 1, ([(4 : Int), 5].erase (optVictim [4, 5] [5, 4, 9])) ++ [6]⟩ ∧
    (∀ l1 w l2, [(4 : Int), 5] = l1 ++ w :: l2 → (∀ x ∈ l1, x ∈ [(5 : Int), 4, 9]) →
      w ∉ [(5 : Int), 4, 9] → optVictim [4, 5] [5, 4, 9] = w) ∧
    ((∀ f ∈ [(4 : Int), 5], f ∈ [(5 : Int), 4, 9]) →
      optVictim [4, 5] [5, 4, 9] ∈ [(4 : Int), 5] ∧
      ∀ f ∈ [(4 : Int), 5], [(5 : Int), 4, 9].indexOf f ≤
        [(5 : Int), 4, 9].indexOf (optVictim [4, 5] [5, 4, 9]))) :=
  ⟨by decide, opt_eviction ⟨2, 0, [4, 5]⟩ 6 [5, 4, 9] (by decide) (by decide) (by decide)⟩

/-- Claim C9: with capacity 0 (so an always-empty Frame Set), inserting a
non-resident page first increments the fault counter and only then attempts
the eviction, which fails (pop / remove on an empty list); the instance is
left, on the error path, with the fault counter already increased by one. -/
theorem capacity_zero_insert_partial (n : Nat) (p : Int) (future : List Int) :
    fifoInsert ⟨0, n, []⟩ p = Except.error ⟨0, n + 1, []⟩ ∧
    lruInsert ⟨0, n, []⟩ p = Except.error ⟨0, n + 1, []⟩ ∧
    optInsert ⟨0, n, []⟩ p future = Except.error ⟨0, n + 1, []⟩ := by
  refine ⟨?_, ?_, ?_⟩
  · rw [fifoInsert, if_neg (by simp), if_pos (by simp)]
  · rw [lruInsert, if_neg (by simp), if_pos (by simp)]
  · simp [optInsert, optVictim, optLoop]

/-- Claim C2 (refuted on the code): with capacity 0, the very first insert of
the run raises (IndexError for FIFO/LRU from `pop(0)` on an empty list,
ValueError for OPT from `remove` of the `-1` sentinel) instead of completing
with fault count = length of the reference string.  The error state retains
the already-incremented fault counter. -/
theorem capacity_zero_run_crashes :
    runFIFO ⟨0, 0, []⟩ [0] = Except.error ⟨0, 1, []⟩ ∧
    runLRU ⟨0, 0, []⟩ [0] = Except.error ⟨0, 1, []⟩ ∧
    runOPT ⟨0, 0, []⟩ [0] = Except.error ⟨0, 1, []⟩ := by
  decide

/-- Claim C5: constructing any policy variant with a negative capacity fails
with the configuration error raised by `ReplacementAlgorithm.__init__`
(`ValueError("Page frame count cannot be negative")`); no instance is
created. -/
theorem init_negative_capacity (c : Int) (hc : c < 0) :
    initAlgorithm c = Except.error () := by
  rw [initAlgorithm, if_pos hc]

theorem init_negative_capacity_witness :
    (-1 : Int) < 0 ∧ initAlgorithm (-1) = Except.error () :=
  ⟨by decide, init_negative_capacity (-1) (by decide)⟩

/-- Claim C4: LRU moves a re-accessed resident page to the tail (most-recent)
position without changing the fault count, and on a fault at full capacity it
evicts the page at the head — the least-recent end of the Frame Set. -/
theorem lru_rules (s : AlgState) (p q : Int) (t : List Int) :
    (p ∈ s.page_frames →
      lruInsert s p = Except.ok ⟨s.page_frame_count, s.page_fault_count,
        (s.page_frames.erase p) ++ [p]⟩ ∧
      ((s.page_frames.erase p) ++ [p]).getLast? = some p) ∧
    (p ∉ s.page_frames → s.page_frame_count ≤ s.page_frames.length →
      s.page_frames = q :: t →
      lruInsert s p = Except.ok ⟨s.page_frame_count, s.page_fault_count + 1,
        t ++ [p]⟩) := by
  constructor
  · intro hp
    exact ⟨by rw [lruInsert, if_pos hp], List.getLast?_concat _⟩
  · intro hp hfull heq
    rw [lruInsert, if_neg hp, if_pos hfull]
    rw [heq]

theorem lru_rules_witness :
    ((3 : Int) ∈ [(7 : Int), 3] →
      lruInsert ⟨2, 5, [7, 3]⟩ 3 = Except.ok ⟨2, 5, ([(7 : Int), 3].erase 3) ++ [3]⟩ ∧
      (([(7 : Int), 3].erase 3) ++ [3]).getLast? = some 3) ∧
    ((3 : Int) ∉ [(7 : Int), 3] → 2 ≤ [(7 : Int), 3].length →
      [(7 : Int), 3] = 7 :: [3] →
      lruInsert ⟨2, 5, [7, 3]⟩ 3 = Except.ok ⟨2, 6, [3] ++ [3]⟩) :=
  lru_rules ⟨2, 5, [7, 3]⟩ 3 7 [3]

/-- Claim C10: an insert that returns normally leaves the inserted page
resident; for FIFO and LRU a faulting insert leaves it at the tail position. -/
theorem insert_resident (s s1 s2 s3 : AlgState) (p : Int) (future : List Int)
    (hc : 1 ≤ s.page_frame_count) :
    (fifoInsert s p = Except.ok s1 →
      p ∈ s1.page_frames ∧ (p ∉ s.page_frames → s1.page_frames.getLast? = some p)) ∧
    (lruInsert s p = Except.ok s2 →
      p ∈ s2.page_frames ∧ (p ∉ s.page_frames → s2.page_frames.getLast? = some p)) ∧
    (optInsert s p future = Except.ok s3 → p ∈ s3.page_frames) := by
  refine ⟨?_, ?_, ?_⟩
  · intro h1
    rw [fifoInsert] at h1
    by_cases hp : p ∈ s.page_frames
    · rw [if_pos hp] at h1
      cases h1
      exact ⟨hp, fun hnp => absurd hp hnp⟩
    · rw [if_neg hp] at h1
      by_cases hfull : s.page_frame_count ≤ s.page_frames.length
      · rw [if_pos hfull] at h1
        cases heq : s.page_frames with
        | nil => rw [heq] at h1; cases h1
        | cons a t =>
          rw [heq] at h1
          cases h1
          exact ⟨List.mem_append.mpr (Or.inr (List.mem_cons_self p [])),
            fun _ => List.getLast?_concat _⟩
      · rw [if_neg hfull] at h1
        cases h1
        exact ⟨List.mem_append.mpr (Or.inr (List.mem_cons_self p [])),
          fun _ => List.getLast?_concat _⟩
  · intro h2
    rw [lruInsert] at h2
    by_cases hp : p ∈ s.page_frames
    · rw [if_pos hp] at h2
      cases h2
      exact ⟨List.mem_append.mpr (Or.inr (List.mem_cons_self p [])),
        fun hnp => absurd hp hnp⟩
    · rw [if_neg hp] at h2
      by_cases hfull : s.page_frame_count ≤ s.page_frames.length
      · rw [if_pos hfull] at h2
        cases heq : s.page_frames with
        | nil => rw [heq] at h2; cases h2
        | cons a t =>
          rw [heq] at h2
          cases h2
          exact ⟨List.mem_append.mpr (Or.inr (List.mem_cons_self p [])),
            fun _ => List.getLast?_concat _⟩
      · rw [if_neg hfull] at h2
        cases h2
        exact ⟨List.mem_append.mpr (Or.inr (List.mem_cons_self p [])),
          fun _ => List.getLast?_concat _⟩
  · intro h3
    rw [optInsert] at h3
    by_cases hp : p ∈ s.page_frames
    · rw [if_pos hp] at h3
      cases h3
      exact hp
    · rw [if_neg hp] at h3
      by_cases hfull : s.page_frame_count ≤ s.page_frames.length
      · rw [if_pos hfull] at h3
        by_cases hv : optVictim s.page_frames future ∈ s.page_frames
        · rw [if_pos hv] at h3
          cases h3
          exact List.mem_append.mpr (Or.inr (List.mem_cons_self p []))
        · rw [if_neg hv] at h3
          cases h3
      · rw [if_neg hfull] at h3
        cases h3
        exact List.mem_append.mpr (Or.inr (List.mem_cons_self p []))

theorem insert_resident_witness :
    1 ≤ (1 : Nat) ∧
    ((fifoInsert ⟨1, 0, []⟩ 3 = Except.ok ⟨1, 1, [3]⟩ →
      (3 : Int) ∈ [(3 : Int)] ∧
        ((3 : Int) ∉ ([] : List Int) → [(3 : Int)].getLast? = some 3)) ∧
    (lruInsert ⟨1, 0, []⟩ 3 = Except.ok ⟨1, 1, [3]⟩ →
      (3 : Int) ∈ [(3 : Int)] ∧
        ((3 : Int) ∉ ([] : List Int) → [(3 : Int)].getLast? = some 3)) ∧
    (optInsert ⟨1, 0, []⟩ 3 [] = Except.ok ⟨1, 1, [3]⟩ → (3 : Int) ∈ [(3 : Int)])) :=
  ⟨by decide, insert_resident ⟨1, 0, []⟩ ⟨1, 1, [3]⟩ ⟨1, 1, [3]⟩ ⟨1, 1, [3]⟩ 3 [] (by decide)⟩

/-! ## Run-level invariants -/

theorem nodup_concat (l : List Int) (p : Int) (h : l.Nodup) (hp : p ∉ l) :
    (l ++ [p]).Nodup := by
  simp [List.nodup_append]
  exact ⟨h, hp⟩

theorem fifoInsert_inv (c : Nat) (s s' : AlgState) (p : Int)
    (hI : StateInv c s) (h : fifoInsert s p = Except.ok s') : StateInv c s' := by
  obtain ⟨hcap, hlen, hnd⟩ := hI
  rw [fifoInsert] at h
  by_cases hp : p ∈ s.page_frames
  · rw [if_pos hp] at h
    cases h
    exact ⟨hcap, hlen, hnd⟩
  · rw [if_neg hp] at h
    by_cases hfull : s.page_frame_count ≤ s.page_frames.length
    · rw [if_pos hfull] at h
      cases heq : s.page_frames with
      | nil => rw [heq] at h; cases h
      | cons a t =>
        rw [heq] at h
        cases h
        rw [heq] at hlen hnd hp
        refine ⟨hcap, ?_, ?_⟩
        · simp only [List.length_append, List.length_cons, List.length_nil] at hlen ⊢
          omega
        · exact nodup_concat t p (List.Nodup.of_cons hnd)
            (fun hmem => hp (List.mem_cons_of_mem a hmem))
    · rw [if_neg hfull] at h
      cases h
      refine ⟨hcap, ?_, nodup_concat _ p hnd hp⟩
      simp only [List.length_append, List.length_cons, List.length_nil]
      omega

theorem lruInsert_inv (c : Nat) (s s' : AlgState) (p : Int)
    (hI : StateInv c s) (h : lruInsert s p = Except.ok s') : StateInv c s' := by
  obtain ⟨hcap, hlen, hnd⟩ := hI
  rw [lruInsert] at h
  by_cases hp : p ∈ s.page_frames
  · rw [if_pos hp] at h
    cases h
    refine ⟨hcap, ?_, ?_⟩
    · have : (s.page_frames.erase p).length = s.page_frames.length - 1 :=
        List.length_erase_of_mem hp
      have hpos : 1 ≤ s.page_frames.length := List.length_pos.mpr
        (fun hnil => by rw [hnil] at hp; cases hp)
      simp only [List.length_append, List.length_cons, List.length_nil, this]
      omega
    · refine nodup_concat _ p (List.Nodup.erase p hnd) ?_
      intro hmem
      exact absurd rfl ((List.Nodup.mem_erase_iff hnd).mp hmem).1
  · rw [if_neg hp] at h
    by_cases hfull : s.page_frame_count ≤ s.page_frames.length
    · rw [if_pos hfull] at h
      cases heq : s.page_frames with
      | nil => rw [heq] at h; cases h
      | cons a t =>
        rw [heq] at h
        cases h
        rw [heq] at hlen hnd hp
        refine ⟨hcap, ?_, ?_⟩
        · simp only [List.length_append, List.length_cons, List.length_nil] at hlen ⊢
          omega
        · exact nodup_concat t p (List.Nodup.of_cons hnd)
            (fun hmem => hp (List.mem_cons_of_mem a hmem))
    · rw [if_neg hfull] at h
      cases h
      refine ⟨hcap, ?_, nodup_concat _ p hnd hp⟩
      simp only [List.length_append, List.length_cons, List.length_nil]
      omega

theorem optInsert_inv (c : Nat) (s s' : AlgState) (p : Int) (future : List Int)
    (hI : StateInv c s) (h : optInsert s p future = Except.ok s') : StateInv c s' := by
  obtain ⟨hcap, hlen, hnd⟩ := hI
  rw [optInsert] at h
  by_cases hp : p ∈ s.page_frames
  · rw [if_pos hp] at h
    cases h
    exact ⟨hcap, hlen, hnd⟩
  · rw [if_neg hp] at h
    by_cases hfull : s.page_frame_count ≤ s.page_frames.length
    · rw [if_pos hfull] at h
      by_cases hv : optVictim s.page_frames future ∈ s.page_frames
      · rw [if_pos hv] at h
        cases h
        refine ⟨hcap, ?_, ?_⟩
        · have : (s.page_frames.erase _).length = s.page_frames.length - 1 :=
            List.length_erase_of_mem hv
          have hpos : 1 ≤ s.page_frames.length := List.length_pos.mpr
            (fun hnil => by rw [hnil] at hv; cases hv)
          simp only [List.length_append, List.length_cons, List.length_nil, this]
          omega
        · exact nodup_concat _ p (List.Nodup.erase _ hnd)
            (fun hmem => hp (List.mem_of_mem_erase hmem))
      · rw [if_neg hv] at h
        cases h
    · rw [if_neg hfull] at h
      cases h
      refine ⟨hcap, ?_, nodup_concat _ p hnd hp⟩
      simp only [List.length_append, List.length_cons, List.length_nil]
      omega

theorem runPolicy_preserves (P : AlgState → Prop)
    (step : AlgState → Int → List Int → Except AlgState AlgState)
    (H : ∀ s p rest s', P s → step s p rest = Except.ok s' → P s') :
    ∀ σ s s', P s → runPolicy step s σ = Except.ok s' → P s' := by
  intro σ
  induction σ with
  | nil =>
    intro s s' hP h
    rw [runPolicy] at h
    cases h
    exact hP
  | cons q rest ih =>
    intro s s' hP h
    rw [runPolicy] at h
    cases hstep : step s q rest with
    | ok s1 =>
      rw [hstep] at h
      exact ih s1 s' (H s q rest s1 hP hstep) h
    | error e => rw [hstep] at h; cases h

theorem insertSeqOPT_preserves (P : AlgState → Prop)
    (H : ∀ s p future s', P s → optInsert s p future = Except.ok s' → P s') :
    ∀ ops s s', P s → insertSeqOPT s ops = Except.ok s' → P s' := by
  intro ops
  induction ops with
  | nil =>
    intro s s' hP h
    rw [insertSeqOPT] at h
    cases h
    exact hP
  | cons op rest ih =>
    intro s s' hP h
    rw [insertSeqOPT] at h
    cases hstep : optInsert s op.1 op.2 with
    | ok s1 =>
      rw [hstep] at h
      exact ih s1 s' (H s op.1 op.2 s1 hP hstep) h
    | error e => rw [hstep] at h; cases h

/-- Claim C8: after any sequence of inserts that return normally, every
variant keeps the Frame Set within the construction capacity and free of
duplicate page identifiers. -/
theorem frame_invariants (c : Nat) (pages : List Int) (ops : List (Int × List Int))
    (s1 s2 s3 : AlgState)
    (h1 : runFIFO ⟨c, 0, []⟩ pages = Except.ok s1)
    (h2 : runLRU ⟨c, 0, []⟩ pages = Except.ok s2)
    (h3 : insertSeqOPT ⟨c, 0, []⟩ ops = Except.ok s3) :
    (s1.page_frames.length ≤ c ∧ s1.page_frames.Nodup) ∧
    (s2.page_frames.length ≤ c ∧ s2.page_frames.Nodup) ∧
    (s3.page_frames.length ≤ c ∧ s3.page_frames.Nodup) := by
  have hinit : StateInv c ⟨c, 0, []⟩ := ⟨rfl, by simp, List.nodup_nil⟩
  have i1 : StateInv c s1 := runPolicy_preserves (StateInv c) _
    (fun s p _ s' hP hs => fifoInsert_inv c s s' p hP hs) pages _ s1 hinit h1
  have i2 : StateInv c s2 := runPolicy_preserves (StateInv c) _
    (fun s p _ s' hP hs => lruInsert_inv c s s' p hP hs) pages _ s2 hinit h2
  have i3 : StateInv c s3 := insertSeqOPT_preserves (StateInv c)
    (fun s p future s' hP hs => optInsert_inv c s s' p future hP hs) ops _ s3 hinit h3
  exact ⟨⟨i1.2.1, i1.2.2⟩, ⟨i2.2.1, i2.2.2⟩, ⟨i3.2.1, i3.2.2⟩⟩

theorem frame_invariants_witness :
    ((⟨2, 4, [3, 1]⟩ : AlgState).page_frames.length ≤ 2 ∧
        (⟨2, 4, [3, 1]⟩ : AlgState).page_frames.Nodup) ∧
    ((⟨2, 4, [3, 1]⟩ : AlgState).page_frames.length ≤ 2 ∧
        (⟨2, 4, [3, 1]⟩ : AlgState).page_frames.Nodup) ∧
    ((⟨2, 2, [1, 2]⟩ : AlgState).page_frames.length ≤ 2 ∧
        (⟨2, 2, [1, 2]⟩ : AlgState).page_frames.Nodup) :=
  frame_invariants 2 [1, 2, 3, 1] [(1, [2]), (2, [])] ⟨2, 4, [3, 1]⟩ ⟨2, 4, [3, 1]⟩
    ⟨2, 2, [1, 2]⟩ (by decide) (by decide) (by decide)

/-! ## Cold-miss regime: capacity at least the number of distinct pages -/

theorem sdiff_insert_card (A F : Finset Int) (q : Int) (hq : q ∉ F) :
    ((insert q A) \ F).card = (A \ insert q F).card + 1 := by
  have h1 : (insert q A) \ F = insert q (A \ insert q F) := by
    ext x
    simp only [Finset.mem_sdiff, Finset.mem_insert, not_or]
    constructor
    · rintro ⟨hx1 | hx2, hx3⟩
      · exact Or.inl hx1
      · by_cases hxq : x = q
        · exact Or.inl hxq
        · exact Or.inr ⟨hx2, hxq, hx3⟩
    · rintro (hx | ⟨hx1, hx2, hx3⟩)
      · exact ⟨Or.inl hx, by rw [hx]; exact hq⟩
      · exact ⟨Or.inr hx1, hx3⟩
  rw [h1, Finset.card_insert_of_not_mem (by simp)]

/-- Generic cold run: as long as the capacity can absorb every distinct page
that will be referenced, any policy whose step is a no-op on hits (up to
reordering) and a plain append on below-capacity misses never evicts and
faults exactly once per new distinct page. -/
theorem runPolicy_cold (step : AlgState → Int → List Int → Except AlgState AlgState)
    (Hhit : ∀ s q rest, q ∈ s.page_frames → ∃ fr, step s q rest =
      Except.ok ⟨s.page_frame_count, s.page_fault_count, fr⟩ ∧
      fr.toFinset = s.page_frames.toFinset ∧ fr.length = s.page_frames.length ∧
      (s.page_frames.Nodup → fr.Nodup))
    (Hmiss : ∀ s q rest, q ∉ s.page_frames →
      s.page_frames.length < s.page_frame_count →
      step s q rest = Except.ok ⟨s.page_frame_count, s.page_fault_count + 1,
        s.page_frames ++ [q]⟩) :
    ∀ σ s, s.page_frames.Nodup →
      (s.page_frames.toFinset ∪ σ.toFinset).card ≤ s.page_frame_count →
      ∃ fr, runPolicy step s σ =
        Except.ok ⟨s.page_frame_count,
          s.page_fault_count + (σ.toFinset \ s.page_frames.toFinset).card, fr⟩ ∧
        fr.toFinset = s.page_frames.toFinset ∪ σ.toFinset := by
  intro σ
  induction σ with
  | nil =>
    intro s hnd _
    refine ⟨s.page_frames, ?_, by simp⟩
    simp [runPolicy]
  | cons q rest ih =>
    intro s hnd hcard
    by_cases hq : q ∈ s.page_frames
    · obtain ⟨fr, hstep, hfe, hfl, hfnd⟩ := Hhit s q rest hq
      have hqf : q ∈ s.page_frames.toFinset := List.mem_toFinset.mpr hq
      have hset : s.page_frames.toFinset ∪ (q :: rest).toFinset =
          s.page_frames.toFinset ∪ rest.toFinset := by
        ext x
        simp only [Finset.mem_union, List.toFinset_cons, Finset.mem_insert]
        constructor
        · rintro (h | h | h)
          · exact Or.inl h
          · exact Or.inl (h ▸ hqf)
          · exact Or.inr h
        · rintro (h | h)
          · exact Or.inl h
          · exact Or.inr (Or.inr h)
      obtain ⟨fr2, hrun, hfe2⟩ := ih ⟨s.page_frame_count, s.page_fault_count, fr⟩
        (hfnd hnd) (by simp only [hfe]; rw [hset] at hcard; exact hcard)
      refine ⟨fr2, ?_, ?_⟩
      · have hdiff : (q :: rest).toFinset \ s.page_frames.toFinset =
            rest.toFinset \ s.page_frames.toFinset := by
          ext x
          simp only [Finset.mem_sdiff, List.toFinset_cons, Finset.mem_insert]
          constructor
          · rintro ⟨h | h, h2⟩
            · exact absurd (h ▸ hqf) h2
            · exact ⟨h, h2⟩
          · rintro ⟨h1, h2⟩
            exact ⟨Or.inr h1, h2⟩
        simp only [runPolicy, hstep]
        rw [hrun, hdiff]
        simp only [hfe]
      · rw [hfe2]
        simp only [hfe]
        rw [hset]
    · have hlt : s.page_frames.length < s.page_frame_count := by
        have h1 : s.page_frames.toFinset.card = s.page_frames.length :=
          List.toFinset_card_of_nodup hnd
        have h2 : insert q s.page_frames.toFinset ⊆
            s.page_frames.toFinset ∪ (q :: rest).toFinset := by
          intro x hx
          rcases Finset.mem_insert.mp hx with hx | hx
          · subst hx
            exact Finset.mem_union_right _ (by simp)
          · exact Finset.mem_union_left _ hx
        have h3 := Finset.card_le_card h2
        have h4 : (insert q s.page_frames.toFinset).card =
            s.page_frames.toFinset.card + 1 :=
          Finset.card_insert_of_not_mem (fun hmem => hq (List.mem_toFinset.mp hmem))
        omega
      have hstep := Hmiss s q rest hq hlt
      have hqnf : q ∉ s.page_frames.toFinset :=
        fun hmem => hq (List.mem_toFinset.mp hmem)
      have hsetc : (s.page_frames ++ [q]).toFinset ∪ rest.toFinset =
          s.page_frames.toFinset ∪ (q :: rest).toFinset := by
        rw [toFinset_concat]
        ext x
        simp only [Finset.mem_union, Finset.mem_insert, List.toFinset_cons]
        tauto
      obtain ⟨fr2, hrun, hfe2⟩ := ih ⟨s.page_frame_count, s.page_fault_count + 1,
          s.page_frames ++ [q]⟩
        (nodup_concat _ q hnd hq) (by rw [hsetc]; exact hcard)
      refine ⟨fr2, ?_, by rw [hfe2]; exact hsetc⟩
      simp only [runPolicy, hstep]
      rw [hrun]
      have hcount : rest.toFinset \ (s.page_frames ++ [q]).toFinset =
          rest.toFinset \ insert q s.page_frames.toFinset := by
        rw [toFinset_concat]
      rw [hcount]
      have hs := sdiff_insert_card rest.toFinset s.page_frames.toFinset q hqnf
      have harith : s.page_fault_count + 1 +
          (rest.toFinset \ insert q s.page_frames.toFinset).card =
          s.page_fault_count + ((q :: rest).toFinset \ s.page_frames.toFinset).card := by
        rw [List.toFinset_cons, hs]
        omega
      rw [harith]

/-- Claim C7: when the capacity is at least the number of distinct pages in
the reference string, every policy completes with a fault count equal to that
number of distinct pages. -/
theorem cold_miss_law (rs : List Int) (c : Nat) (h : rs.toFinset.card ≤ c) :
    faultsFIFO rs c = Except.ok rs.toFinset.card ∧
    faultsLRU rs c = Except.ok rs.toFinset.card ∧
    faultsOPT rs c = Except.ok rs.toFinset.card := by
  have hF := runPolicy_cold (fun s' page _ => fifoInsert s' page)
    (fun s q rest hq => ⟨s.page_frames, by
      show fifoInsert s q = _
      rw [fifoInsert, if_pos hq], rfl, rfl, fun hnd => hnd⟩)
    (fun s q rest hq hlt => by
      show fifoInsert s q = _
      rw [fifoInsert, if_neg hq, if_neg (by omega)])
    rs ⟨c, 0, []⟩ List.nodup_nil (by simpa using h)
  have hL := runPolicy_cold (fun s' page _ => lruInsert s' page)
    (fun s q rest hq => ⟨(s.page_frames.erase q) ++ [q], by
      show lruInsert s q = _
      rw [lruInsert, if_pos hq],
      by
        rw [toFinset_concat]
        ext x
        simp only [Finset.mem_insert, List.mem_toFinset]
        constructor
        · rintro (hx | hx)
          · exact hx ▸ hq
          · exact List.mem_of_mem_erase hx
        · intro hx
          by_cases hxq : x = q
          · exact Or.inl hxq
          · exact Or.inr (List.mem_erase_of_ne hxq |>.mpr hx),
      by
        simp only [List.length_append, List.length_cons, List.length_nil,
          List.length_erase_of_mem hq]
        have : 1 ≤ s.page_frames.length := List.length_pos.mpr
          (fun hnil => by rw [hnil] at hq; cases hq)
        omega,
      fun hnd => nodup_concat _ q (List.Nodup.erase q hnd)
        (fun hmem => absurd rfl ((List.Nodup.mem_erase_iff hnd).mp hmem).1)⟩)
    (fun s q rest hq hlt => by
      show lruInsert s q = _
      rw [lruInsert, if_neg hq, if_neg (by omega)])
    rs ⟨c, 0, []⟩ List.nodup_nil (by simpa using h)
  have hO := runPolicy_cold optInsert
    (fun s q rest hq => ⟨s.page_frames, by rw [optInsert, if_pos hq], rfl, rfl,
      fun hnd => hnd⟩)
    (fun s q rest hq hlt => by
      rw [optInsert, if_neg hq, if_neg (by omega)])
    rs ⟨c, 0, []⟩ List.nodup_nil (by simpa using h)
  obtain ⟨fr1, hrun1, _⟩ := hF
  obtain ⟨fr2, hrun2, _⟩ := hL
  obtain ⟨fr3, hrun3, _⟩ := hO
  refine ⟨?_, ?_, ?_⟩
  · rw [faultsFIFO, runFIFO, hrun1]
    simp [Except.map]
  · rw [faultsLRU, runLRU, hrun2]
    simp [Except.map]
  · rw [faultsOPT, runOPT, hrun3]
    simp [Except.map]

theorem cold_miss_law_witness :
    [(1 : Int), 2, 1].toFinset.card ≤ 2 ∧
    (faultsFIFO [1, 2, 1] 2 = Except.ok [(1 : Int), 2, 1].toFinset.card ∧
     faultsLRU [1, 2, 1] 2 = Except.ok [(1 : Int), 2, 1].toFinset.card ∧
     faultsOPT [1, 2, 1] 2 = Except.ok [(1 : Int), 2, 1].toFinset.card) :=
  ⟨by decide, cold_miss_law [1, 2, 1] 2 (by decide)⟩

/-! ## FIFO evicts the earliest-inserted page -/

/-- Erasing timestamps from a timed insert gives exactly `fifoInsert`. -/
theorem fifoInsertTimed_proj (s : TAlgState) (p : Int) (i : Nat) :
    fifoInsert (projT s) p = projTE (fifoInsertTimed s p i) := by
  rw [fifoInsert, fifoInsertTimed]
  by_cases hp : p ∈ s.page_frames.map Prod.fst
  · rw [if_pos (by simpa [projT] using hp), if_pos hp]
    rfl
  · rw [if_neg (by simpa [projT] using hp), if_neg hp]
    by_cases hfull : s.page_frame_count ≤ s.page_frames.length
    · rw [if_pos (by simpa [projT] using hfull), if_pos hfull]
      cases heq : s.page_frames with
      | nil => simp [projT, heq, projTE]
      | cons a t => simp [projT, heq, projTE]
    · rw [if_neg (by simpa [projT] using hfull), if_neg hfull]
      simp [projT, projTE]

theorem fifoInsertTimed_inv (c i : Nat) (s s' : TAlgState) (p : Int)
    (hI : TimedInv c i s) (h : fifoInsertTimed s p i = Except.ok s') :
    TimedInv c (i + 1) s' := by
  obtain ⟨hcap, hpw, hlt⟩ := hI
  rw [fifoInsertTimed] at h
  by_cases hp : p ∈ s.page_frames.map Prod.fst
  · rw [if_pos hp] at h
    cases h
    exact ⟨hcap, hpw, fun x hx => Nat.lt_succ_of_lt (hlt x hx)⟩
  · rw [if_neg hp] at h
    by_cases hfull : s.page_frame_count ≤ s.page_frames.length
    · rw [if_pos hfull] at h
      cases heq : s.page_frames with
      | nil => rw [heq] at h; cases h
      | cons a t =>
        rw [heq] at h
        cases h
        rw [heq] at hpw hlt
        refine ⟨hcap, ?_, ?_⟩
        · rw [List.pairwise_append]
          refine ⟨(List.pairwise_cons.mp hpw).2, List.pairwise_singleton _ _, ?_⟩
          intro x hx y hy
          rw [List.mem_singleton] at hy
          subst hy
          exact hlt x (List.mem_cons_of_mem a hx)
        · intro x hx
          rcases List.mem_append.mp hx with hx | hx
          · exact Nat.lt_succ_of_lt (hlt x (List.mem_cons_of_mem a hx))
          · rw [List.mem_singleton] at hx
            subst hx
            exact Nat.lt_succ_self i
    · rw [if_neg hfull] at h
      cases h
      refine ⟨hcap, ?_, ?_⟩
      · rw [List.pairwise_append]
        refine ⟨hpw, List.pairwise_singleton _ _, ?_⟩
        intro x hx y hy
        rw [List.mem_singleton] at hy
        subst hy
        exact hlt x hx
      · intro x hx
        rcases List.mem_append.mp hx with hx | hx
        · exact Nat.lt_succ_of_lt (hlt x hx)
        · rw [List.mem_singleton] at hx
          subst hx
          exact Nat.lt_succ_self i

theorem runFIFOTimed_inv (c : Nat) :
    ∀ (σ : List Int) (i : Nat) (s s' : TAlgState), TimedInv c i s →
      runFIFOTimed s i σ = Except.ok s' → TimedInv c (i + σ.length) s' := by
  intro σ
  induction σ with
  | nil =>
    intro i s s' hI h
    rw [runFIFOTimed] at h
    cases h
    simpa using hI
  | cons q rest ih =>
    intro i s s' hI h
    rw [runFIFOTimed] at h
    cases hstep : fifoInsertTimed s q i with
    | ok s1 =>
      rw [hstep] at h
      have := ih (i + 1) s1 s' (fifoInsertTimed_inv c i s s1 q hI hstep) h
      simpa [Nat.add_assoc, Nat.add_comm, Nat.add_left_comm] using this
    | error e => rw [hstep] at h; cases h

/-- Claim C3: on a reachable FIFO state, re-inserting a resident page leaves
the state untouched, and a faulting insert at full capacity evicts the head
of the Frame Set, which carries the minimal insertion timestamp — it is the
page inserted earliest among the currently resident ones.  Erasing the
timestamps shows the timed step is exactly `fifoInsert`. -/
theorem fifo_evicts_earliest (c : Nat) (sigma : List Int) (s : TAlgState)
    (p q : Int) (tq : Nat) (t : List (Int × Nat))
    (hrun : runFIFOTimed ⟨c, 0, []⟩ 0 sigma = Except.ok s) :
    (p ∈ s.page_frames.map Prod.fst → fifoInsertTimed s p sigma.length = Except.ok s) ∧
    (p ∉ s.page_frames.map Prod.fst → c ≤ s.page_frames.length →
      s.page_frames = (q, tq) :: t →
      fifoInsertTimed s p sigma.length =
        Except.ok ⟨c, s.page_fault_count + 1, t ++ [(p, sigma.length)]⟩ ∧
      ∀ x ∈ s.page_frames, tq ≤ x.2) ∧
    fifoInsert (projT s) p = projTE (fifoInsertTimed s p sigma.length) := by
  have hinit : TimedInv c 0 (⟨c, 0, []⟩ : TAlgState) :=
    ⟨rfl, List.Pairwise.nil, by simp⟩
  have hI := runFIFOTimed_inv c sigma 0 _ s hinit hrun
  obtain ⟨hcap, hpw, _⟩ := hI
  refine ⟨?_, ?_, fifoInsertTimed_proj s p sigma.length⟩
  · intro hp
    rw [fifoInsertTimed, if_pos hp]
  · intro hp hfull heq
    constructor
    · rw [fifoInsertTimed, if_neg hp, if_pos (by rw [hcap]; exact hfull), heq, hcap]
    · intro x hx
      rw [heq] at hx
      rcases List.mem_cons.mp hx with hx | hx
      · subst hx
        exact Nat.le_refl tq
      · rw [heq] at hpw
        exact Nat.le_of_lt ((List.pairwise_cons.mp hpw).1 x hx)

theorem fifo_evicts_earliest_witness :
    ((6 : Int) ∈ [(4, 0), ((5 : Int), (1 : Nat))].map Prod.fst →
      fifoInsertTimed ⟨2, 2, [(4, 0), (5, 1)]⟩ 6 [(4 : Int), 5].length =
        Except.ok ⟨2, 2, [(4, 0), (5, 1)]⟩) ∧
    ((6 : Int) ∉ [(4, 0), ((5 : Int), (1 : Nat))].map Prod.fst →
      2 ≤ [((4 : Int), (0 : Nat)), (5, 1)].length →
      [((4 : Int), (0 : Nat)), (5, 1)] = (4, 0) :: [(5, 1)] →
      fifoInsertTimed ⟨2, 2, [(4, 0), (5, 1)]⟩ 6 [(4 : Int), 5].length =
        Except.ok ⟨2, 2 + 1, [(5, 1)] ++ [(6, [(4 : Int), 5].length)]⟩ ∧
      ∀ x ∈ [((4 : Int), (0 : Nat)), (5, 1)], 0 ≤ x.2) ∧
    fifoInsert (projT ⟨2, 2, [(4, 0), (5, 1)]⟩) 6 =
      projTE (fifoInsertTimed ⟨2, 2, [(4, 0), (5, 1)]⟩ 6 [(4 : Int), 5].length) :=
  fifo_evicts_earliest 2 [4, 5] ⟨2, 2, [(4, 0), (5, 1)]⟩ 6 4 0 [(5, 1)] (by decide)

/-! ## Exchange lemmas for demand-paging schedules -/

theorem swap_set_merge (C : Finset Int) (b d : Int) (hb : b ∈ C) (hd : d ∉ C) :
    insert b ((insert d (C.erase b)).erase d) = C := by
  rw [Finset.erase_insert (fun h => hd (Finset.mem_of_mem_erase h)),
    Finset.insert_erase hb]

theorem swap_set_shift (C : Finset Int) (d b y : Int) (hy : y ∈ C) (hyb : y ≠ b)
    (hdb : d ≠ b) :
    insert y ((insert d (C.erase y)).erase b) = insert d (C.erase b) := by
  rw [Finset.erase_insert_of_ne hdb, Finset.Insert.comm, Finset.erase_right_comm,
    Finset.insert_erase (Finset.mem_erase.mpr ⟨hyb, hy⟩)]

theorem swap_set_assoc (C : Finset Int) (q d b y : Int) (hdy : d ≠ y) (hqb : q ≠ b) :
    insert q ((insert d (C.erase b)).erase y) = insert d ((insert q (C.erase y)).erase b) := by
  rw [Finset.erase_insert_of_ne hdy, Finset.erase_insert_of_ne hqb,
    Finset.erase_right_comm, Finset.Insert.comm]

theorem swap_card (C : Finset Int) (b d : Int) (hb : b ∈ C) (hd : d ∉ C) :
    (insert d (C.erase b)).card = C.card := by
  rw [Finset.card_insert_of_not_mem (fun h => hd (Finset.mem_of_mem_erase h)),
    Finset.card_erase_of_mem hb]
  have h1 : 1 ≤ C.card := Finset.card_pos.mpr ⟨b, hb⟩
  omega

/-- Exchange, unconditional version: a demand schedule from a full cache `X`
can be simulated from the cache `X` with `b` swapped out for `d` at the cost
of at most one extra fault. -/
theorem exec_swap_general {c : Nat} :
    ∀ {σ : List Int} {X : Finset Int} {k : Nat}, Exec c σ X k →
      ∀ b d, b ∈ X → d ∉ X → X.card = c →
        ∃ m, m ≤ k + 1 ∧ Exec c σ (insert d (X.erase b)) m := by
  intro σ X k h
  induction h with
  | nil C =>
    intro b d hb hd hcard
    exact ⟨0, by omega, Exec.nil _⟩
  | hit q σ C k hq hrest ih =>
    intro b d hb hd hcard
    by_cases hqb : q = b
    · subst hqb
      have hqY : q ∉ insert d (C.erase q) := by
        simp only [Finset.mem_insert, Finset.mem_erase, not_or]
        exact ⟨fun h1 => hd (h1 ▸ hq), fun h1 => h1.1 rfl⟩
      refine ⟨k + 1, by omega, ?_⟩
      refine Exec.missEvict q σ _ k d hqY ?_ (Finset.mem_insert_self d _) ?_
      · rw [swap_card C q d hq hd, hcard]
      · rw [swap_set_merge C q d hq hd]
        exact hrest
    · obtain ⟨m, hm, hex⟩ := ih b d hb hd hcard
      refine ⟨m, hm, Exec.hit q σ _ m ?_ hex⟩
      exact Finset.mem_insert_of_mem (Finset.mem_erase.mpr ⟨hqb, hq⟩)
  | missAdd q σ C k hq hlt hrest ih =>
    intro b d hb hd hcard
    exact absurd hcard (Nat.ne_of_lt hlt)
  | missEvict q σ C k y hq hle hy hrest ih =>
    intro b d hb hd hcard
    have hqb : q ≠ b := fun h => hq (h ▸ hb)
    by_cases hqd : q = d
    · subst hqd
      by_cases hyb : y = b
      · subst hyb
        refine ⟨k, by omega, Exec.hit q σ _ k (Finset.mem_insert_self q _) hrest⟩
      · have hbX : b ∈ insert q (C.erase y) :=
          Finset.mem_insert_of_mem (Finset.mem_erase.mpr ⟨Ne.symm hyb, hb⟩)
        have hyX : y ∉ insert q (C.erase y) := by
          simp only [Finset.mem_insert, Finset.mem_erase, not_or]
          exact ⟨fun h1 => hd (h1 ▸ hy), fun h1 => h1.1 rfl⟩
        have hcX : (insert q (C.erase y)).card = c := by
          rw [swap_card C y q hy hq, hcard]
        obtain ⟨m, hm, hex⟩ := ih b y hbX hyX hcX
        rw [swap_set_shift C q b y hy hyb (fun h => hq (h ▸ hb))] at hex
        exact ⟨m, by omega, Exec.hit q σ _ m (Finset.mem_insert_self q _) hex⟩
    · have hqY : q ∉ insert d (C.erase b) := by
        simp only [Finset.mem_insert, Finset.mem_erase, not_or]
        exact ⟨hqd, fun h1 => hq h1.2⟩
      by_cases hyb : y = b
      · subst hyb
        refine ⟨k + 1, by omega, ?_⟩
        refine Exec.missEvict q σ _ k d hqY ?_ (Finset.mem_insert_self d _) ?_
        · rw [swap_card C y d hy hd, hcard]
        · rw [Finset.erase_insert (fun h => hd (Finset.mem_of_mem_erase h))]
          exact hrest
      · have hbX : b ∈ insert q (C.erase y) :=
          Finset.mem_insert_of_mem (Finset.mem_erase.mpr ⟨Ne.symm hyb, hb⟩)
        have hdX : d ∉ insert q (C.erase y) := by
          simp only [Finset.mem_insert, Finset.mem_erase, not_or]
          exact ⟨fun h1 => hqd (h1.symm), fun h1 => hd h1.2⟩
        have hcX : (insert q (C.erase y)).card = c := by
          rw [swap_card C y q hy hq, hcard]
        obtain ⟨m, hm, hex⟩ := ih b d hbX hdX hcX
        rw [← swap_set_assoc C q d b y (fun h => hd (h ▸ hy)) hqb] at hex
        refine ⟨m + 1, by omega, ?_⟩
        refine Exec.missEvict q σ _ m y hqY ?_ ?_ hex
        · rw [swap_card C b d hb hd, hcard]
        · exact Finset.mem_insert_of_mem (Finset.mem_erase.mpr ⟨hyb, hy⟩)

theorem hcond_tail (q b d : Int) (σ : List Int) (hqb : q ≠ b) (hqd : q ≠ d)
    (h : b ∈ q :: σ → d ∈ q :: σ ∧ (q :: σ).indexOf d < (q :: σ).indexOf b) :
    b ∈ σ → d ∈ σ ∧ σ.indexOf d < σ.indexOf b := by
  intro hb
  obtain ⟨hd, hlt⟩ := h (List.mem_cons_of_mem q hb)
  have hd' : d ∈ σ := by
    rcases List.mem_cons.mp hd with h1 | h1
    · exact absurd h1.symm hqd
    · exact h1
  refine ⟨hd', ?_⟩
  rw [List.indexOf_cons_ne σ hqd, List.indexOf_cons_ne σ hqb] at hlt
  omega

/-- Exchange, conditional version: if the page `d` (which the alternative
cache holds in place of `b`) is requested strictly before `b` — in particular
if `b` is never requested again — the swapped cache needs no extra fault at
all. -/
theorem exec_swap_before {c : Nat} :
    ∀ {σ : List Int} {X : Finset Int} {k : Nat}, Exec c σ X k →
      ∀ b d, b ∈ X → d ∉ X → X.card = c →
        (b ∈ σ → d ∈ σ ∧ σ.indexOf d < σ.indexOf b) →
        ∃ m, m ≤ k ∧ Exec c σ (insert d (X.erase b)) m := by
  intro σ X k h
  induction h with
  | nil C =>
    intro b d hb hd hcard hbd
    exact ⟨0, Nat.le_refl 0, Exec.nil _⟩
  | hit q σ C k hq hrest ih =>
    intro b d hb hd hcard hbd
    have hqd : q ≠ d := fun h1 => hd (h1 ▸ hq)
    by_cases hqb : q = b
    · subst hqb
      obtain ⟨hdmem, hlt⟩ := hbd (List.mem_cons_self q σ)
      rw [List.indexOf_cons_self q σ] at hlt
      omega
    · obtain ⟨m, hm, hex⟩ := ih b d hb hd hcard (hcond_tail q b d σ hqb hqd hbd)
      exact ⟨m, hm, Exec.hit q σ _ m
        (Finset.mem_insert_of_mem (Finset.mem_erase.mpr ⟨hqb, hq⟩)) hex⟩
  | missAdd q σ C k hq hlt hrest ih =>
    intro b d hb hd hcard hbd
    exact absurd hcard (Nat.ne_of_lt hlt)
  | missEvict q σ C k y hq hle hy hrest ih =>
    intro b d hb hd hcard hbd
    have hqb : q ≠ b := fun h1 => hq (h1 ▸ hb)
    by_cases hqd : q = d
    · subst hqd
      by_cases hyb : y = b
      · subst hyb
        exact ⟨k, by omega, Exec.hit q σ _ k (Finset.mem_insert_self q _) hrest⟩
      · have hbX : b ∈ insert q (C.erase y) :=
          Finset.mem_insert_of_mem (Finset.mem_erase.mpr ⟨fun h1 => hyb h1.symm, hb⟩)
        have hyX : y ∉ insert q (C.erase y) := by
          simp only [Finset.mem_insert, Finset.mem_erase, not_or]
          exact ⟨fun h1 => hd (h1 ▸ hy), fun h1 => h1.1 rfl⟩
        have hcX : (insert q (C.erase y)).card = c := by
          rw [swap_card C y q hy hq, hcard]
        obtain ⟨m, hm, hex⟩ := exec_swap_general hrest b y hbX hyX hcX
        rw [swap_set_shift C q b y hy hyb hqb] at hex
        exact ⟨m, by omega, Exec.hit q σ _ m (Finset.mem_insert_self q _) hex⟩
    · have hqY : q ∉ insert d (C.erase b) := by
        simp only [Finset.mem_insert, Finset.mem_erase, not_or]
        exact ⟨hqd, fun h1 => hq h1.2⟩
      by_cases hyb : y = b
      · subst hyb
        refine ⟨k + 1, Nat.le_refl _, ?_⟩
        refine Exec.missEvict q σ _ k d hqY ?_ (Finset.mem_insert_self d _) ?_
        · rw [swap_card C y d hy hd, hcard]
        · rw [Finset.erase_insert (fun h1 => hd (Finset.mem_of_mem_erase h1))]
          exact hrest
      · have hbX : b ∈ insert q (C.erase y) :=
          Finset.mem_insert_of_mem (Finset.mem_erase.mpr ⟨fun h1 => hyb h1.symm, hb⟩)
        have hdX : d ∉ insert q (C.erase y) := by
          simp only [Finset.mem_insert, Finset.mem_erase, not_or]
          exact ⟨fun h1 => hqd h1.symm, fun h1 => hd h1.2⟩
        have hcX : (insert q (C.erase y)).card = c := by
          rw [swap_card C y q hy hq, hcard]
        obtain ⟨m, hm, hex⟩ := ih b d hbX hdX hcX (hcond_tail q b d σ hqb hqd hbd)
        rw [← swap_set_assoc C q d b y (fun h1 => hd (h1 ▸ hy)) hqb] at hex
        refine ⟨m + 1, by omega, ?_⟩
        refine Exec.missEvict q σ _ m y hqY ?_ ?_ hex
        · rw [swap_card C b d hb hd, hcard]
        · exact Finset.mem_insert_of_mem (Finset.mem_erase.mpr ⟨hyb, hy⟩)

/-- Belady bound: the fault count of the code's OPT run (driven with the
remaining suffix as lookahead) is at most the fault count of any demand
paging schedule over the same requests from the same resident set. -/
theorem exec_opt_min {c : Nat} (hc : 1 ≤ c) :
    ∀ (σ : List Int) (L : List Int) (n k : Nat), L.Nodup → L.length ≤ c →
      Exec c σ L.toFinset k →
      ∃ s', runOPT ⟨c, n, L⟩ σ = Except.ok s' ∧
        s'.page_fault_count ≤ n + k := by
  intro σ
  induction σ with
  | nil =>
    intro L n k _ _ hex
    cases hex
    exact ⟨⟨c, n, L⟩, rfl, by show n ≤ n + 0; omega⟩
  | cons q rest ih =>
    intro L n k hnd hlen hex
    cases hex with
    | hit _ _ _ _ hq hrest =>
      have hqL : q ∈ L := List.mem_toFinset.mp hq
      have hstep : optInsert ⟨c, n, L⟩ q rest = Except.ok ⟨c, n, L⟩ := by
        rw [optInsert, if_pos hqL]
      obtain ⟨s', hrun, hb⟩ := ih L n k hnd hlen hrest
      refine ⟨s', ?_, hb⟩
      rw [runOPT] at hrun ⊢
      simp only [runPolicy, hstep]
      exact hrun
    | missAdd _ _ _ k' hq hlt hrest =>
      have hqL : q ∉ L := fun h1 => hq (List.mem_toFinset.mpr h1)
      have hlen2 : L.length < c := by
        rw [← List.toFinset_card_of_nodup hnd]
        exact hlt
      have hstep : optInsert ⟨c, n, L⟩ q rest =
          Except.ok ⟨c, n + 1, L ++ [q]⟩ := by
        have hcond : ¬ ((⟨c, n, L⟩ : AlgState).page_frame_count ≤
            (⟨c, n, L⟩ : AlgState).page_frames.length) := by
          show ¬ (c ≤ L.length)
          omega
        rw [optInsert, if_neg hqL, if_neg hcond]
      obtain ⟨s', hrun, hb⟩ := ih (L ++ [q]) (n + 1) k' (nodup_concat L q hnd hqL)
        (by simp only [List.length_append, List.length_cons, List.length_nil]; omega)
        (by rw [toFinset_concat]; exact hrest)
      refine ⟨s', ?_, by omega⟩
      rw [runOPT] at hrun ⊢
      simp only [runPolicy, hstep]
      exact hrun
    | missEvict _ _ _ k' y hq hle hy hrest =>
      have hqL : q ∉ L := fun h1 => hq (List.mem_toFinset.mpr h1)
      have hyL : y ∈ L := List.mem_toFinset.mp hy
      have hcard : L.toFinset.card = L.length := List.toFinset_card_of_nodup hnd
      have hlenc : L.length = c := by omega
      have hneL : L ≠ [] := by
        intro h1
        rw [h1] at hlenc
        simp at hlenc
        omega
      have hv : optVictim L rest ∈ L := optVictim_mem L rest hneL
      have hstep : optInsert ⟨c, n, L⟩ q rest =
          Except.ok ⟨c, n + 1, (L.erase (optVictim L rest)) ++ [q]⟩ := by
        have hcond : (⟨c, n, L⟩ : AlgState).page_frame_count ≤
            (⟨c, n, L⟩ : AlgState).page_frames.length := by
          show c ≤ L.length
          omega
        rw [optInsert, if_neg hqL, if_pos hcond, if_pos hv]
      have hnd' : ((L.erase (optVictim L rest)) ++ [q]).Nodup :=
        nodup_concat _ q (List.Nodup.erase _ hnd)
          (fun hmem => hqL (List.mem_of_mem_erase hmem))
      have hlen' : ((L.erase (optVictim L rest)) ++ [q]).length ≤ c := by
        simp only [List.length_append, List.length_cons, List.length_nil,
          List.length_erase_of_mem hv]
        omega
      have hset : ((L.erase (optVictim L rest)) ++ [q]).toFinset =
          insert q (L.toFinset.erase (optVictim L rest)) := by
        rw [toFinset_concat, toFinset_erase_of_nodup L _ hnd]
      by_cases hvy : optVictim L rest = y
      · obtain ⟨s', hrun, hb⟩ := ih ((L.erase (optVictim L rest)) ++ [q]) (n + 1) k'
          hnd' hlen' (by rw [hset, hvy]; exact hrest)
        refine ⟨s', ?_, by omega⟩
        rw [runOPT] at hrun ⊢
        simp only [runPolicy, hstep]
        exact hrun
      · have hbX : optVictim L rest ∈ insert q (L.toFinset.erase y) :=
          Finset.mem_insert_of_mem (Finset.mem_erase.mpr ⟨hvy, List.mem_toFinset.mpr hv⟩)
        have hdX : y ∉ insert q (L.toFinset.erase y) := by
          simp only [Finset.mem_insert, Finset.mem_erase, not_or]
          exact ⟨fun h1 => hq (h1 ▸ hy), fun h1 => h1.1 rfl⟩
        have hcX : (insert q (L.toFinset.erase y)).card = c := by
          rw [swap_card L.toFinset y q hy hq, hcard, hlenc]
        have hcond : optVictim L rest ∈ rest →
            y ∈ rest ∧ rest.indexOf y < rest.indexOf (optVictim L rest) :=
          fun hvrest => optVictim_best L rest hneL y hyL
            (fun h1 => hvy h1.symm) hvrest
        obtain ⟨m, hm, hex2⟩ := exec_swap_before hrest (optVictim L rest) y
          hbX hdX hcX hcond
        rw [swap_set_shift L.toFinset q (optVictim L rest) y hy
          (fun h1 => hvy h1.symm) (fun h1 => hq (h1 ▸ List.mem_toFinset.mpr hv))] at hex2
        obtain ⟨s', hrun, hb⟩ := ih ((L.erase (optVictim L rest)) ++ [q]) (n + 1) m
          hnd' hlen' (by rw [hset]; exact hex2)
        refine ⟨s', ?_, by omega⟩
        rw [runOPT] at hrun ⊢
        simp only [runPolicy, hstep]
        exact hrun

/-- Any policy whose step is a (possibly reordering) no-op on hits, an append
on below-capacity misses and a single eviction on at-capacity misses induces
a demand-paging execution with exactly its fault count. -/
theorem runPolicy_exec (step : AlgState → Int → List Int → Except AlgState AlgState)
    (c : Nat)
    (Hhit : ∀ s q rest, q ∈ s.page_frames → ∃ fr, step s q rest =
      Except.ok ⟨s.page_frame_count, s.page_fault_count, fr⟩ ∧
      fr.toFinset = s.page_frames.toFinset ∧ fr.length = s.page_frames.length ∧
      (s.page_frames.Nodup → fr.Nodup))
    (Hmiss : ∀ s q rest, q ∉ s.page_frames →
      s.page_frames.length < s.page_frame_count →
      step s q rest = Except.ok ⟨s.page_frame_count, s.page_fault_count + 1,
        s.page_frames ++ [q]⟩)
    (Hevict : ∀ s q rest, q ∉ s.page_frames → s.page_frames.Nodup →
      s.page_frame_count ≤ s.page_frames.length → s.page_frames ≠ [] →
      ∃ y fr, y ∈ s.page_frames ∧ step s q rest =
        Except.ok ⟨s.page_frame_count, s.page_fault_count + 1, fr⟩ ∧
        fr.toFinset = insert q (s.page_frames.toFinset.erase y) ∧
        fr.length = s.page_frames.length ∧ fr.Nodup) :
    ∀ (σ : List Int) (s : AlgState), 1 ≤ c → s.page_frame_count = c →
      s.page_frames.Nodup → s.page_frames.length ≤ c →
      ∃ s' k, runPolicy step s σ = Except.ok s' ∧
        s'.page_fault_count = s.page_fault_count + k ∧
        Exec c σ s.page_frames.toFinset k := by
  intro σ
  induction σ with
  | nil =>
    intro s hc hcap hnd hlen
    exact ⟨s, 0, rfl, by omega, Exec.nil _⟩
  | cons q rest ih =>
    intro s hc hcap hnd hlen
    by_cases hq : q ∈ s.page_frames
    · obtain ⟨fr, hstep, hfe, hfl, hfnd⟩ := Hhit s q rest hq
      obtain ⟨s', k, hrun, hfc, hex⟩ := ih ⟨s.page_frame_count, s.page_fault_count, fr⟩
        hc hcap (hfnd hnd) (by show fr.length ≤ c; omega)
      refine ⟨s', k, ?_, hfc, ?_⟩
      · simp only [runPolicy, hstep]
        exact hrun
      · refine Exec.hit q rest _ k (List.mem_toFinset.mpr hq) ?_
        rw [← hfe]
        exact hex
    · by_cases hfull : s.page_frame_count ≤ s.page_frames.length
      · have hlenc : s.page_frames.length = c := by omega
        have hne : s.page_frames ≠ [] := by
          intro h1
          rw [h1] at hlenc
          simp at hlenc
          omega
        obtain ⟨y, fr, hy, hstep, hfe, hfl, hfnd⟩ := Hevict s q rest hq hnd hfull hne
        obtain ⟨s', k, hrun, hfc, hex⟩ := ih ⟨s.page_frame_count, s.page_fault_count + 1, fr⟩
          hc hcap hfnd (by show fr.length ≤ c; omega)
        refine ⟨s', k + 1, ?_, by simp only [] at hfc ⊢; omega, ?_⟩
        · simp only [runPolicy, hstep]
          exact hrun
        · refine Exec.missEvict q rest _ k y (fun h1 => hq (List.mem_toFinset.mp h1))
            ?_ (List.mem_toFinset.mpr hy) ?_
          · rw [List.toFinset_card_of_nodup hnd]
            omega
          · rw [← hfe]
            exact hex
      · have hstep := Hmiss s q rest hq (by omega)
        obtain ⟨s', k, hrun, hfc, hex⟩ := ih ⟨s.page_frame_count, s.page_fault_count + 1,
            s.page_frames ++ [q]⟩ hc hcap (nodup_concat _ q hnd hq)
          (by
            show (s.page_frames ++ [q]).length ≤ c
            simp only [List.length_append, List.length_cons, List.length_nil]
            omega)
        refine ⟨s', k + 1, ?_, by simp only [] at hfc ⊢; omega, ?_⟩
        · simp only [runPolicy, hstep]
          exact hrun
        · refine Exec.missAdd q rest _ k (fun h1 => hq (List.mem_toFinset.mp h1)) ?_ ?_
          · rw [List.toFinset_card_of_nodup hnd]
            omega
          · rw [← toFinset_concat]
            exact hex

theorem fifo_exec (rs : List Int) (c : Nat) (hc : 1 ≤ c) :
    ∃ s' k, runFIFO ⟨c, 0, []⟩ rs = Except.ok s' ∧
      s'.page_fault_count = k ∧ Exec c rs (List.toFinset []) k := by
  obtain ⟨s', k, hrun, hfc, hex⟩ := runPolicy_exec (fun s' page _ => fifoInsert s' page) c
    (fun s q rest hq => ⟨s.page_frames, by
      show fifoInsert s q = _
      rw [fifoInsert, if_pos hq], rfl, rfl, fun hnd => hnd⟩)
    (fun s q rest hq hlt => by
      show fifoInsert s q = _
      rw [fifoInsert, if_neg hq, if_neg (by omega)])
    (fun s q rest hq hnd hfull hne => by
      cases heq : s.page_frames with
      | nil => exact absurd heq hne
      | cons a t =>
        have hnd2 : (a :: t).Nodup := heq ▸ hnd
        have hq2 : q ∉ a :: t := heq ▸ hq
        refine ⟨a, t ++ [q], List.mem_cons_self a t, ?_, ?_, ?_, ?_⟩
        · show fifoInsert s q = _
          rw [fifoInsert, if_neg hq, if_pos hfull, heq]
        · rw [toFinset_concat, List.toFinset_cons,
            Finset.erase_insert (fun hmem =>
              (List.nodup_cons.mp hnd2).1 (List.mem_toFinset.mp hmem))]
        · simp
        · exact nodup_concat t q (List.Nodup.of_cons hnd2)
            (fun hmem => hq2 (List.mem_cons_of_mem a hmem)))
    rs ⟨c, 0, []⟩ hc rfl List.nodup_nil (by show List.length [] ≤ c; simp)
  exact ⟨s', k, hrun, by simpa using hfc, hex⟩

theorem lru_exec (rs : List Int) (c : Nat) (hc : 1 ≤ c) :
    ∃ s' k, runLRU ⟨c, 0, []⟩ rs = Except.ok s' ∧
      s'.page_fault_count = k ∧ Exec c rs (List.toFinset []) k := by
  obtain ⟨s', k, hrun, hfc, hex⟩ := runPolicy_exec (fun s' page _ => lruInsert s' page) c
    (fun s q rest hq => ⟨(s.page_frames.erase q) ++ [q], by
      show lruInsert s q = _
      rw [lruInsert, if_pos hq],
      by
        rw [toFinset_concat]
        ext x
        simp only [Finset.mem_insert, List.mem_toFinset]
        constructor
        · rintro (hx | hx)
          · exact hx ▸ hq
          · exact List.mem_of_mem_erase hx
        · intro hx
          by_cases hxq : x = q
          · exact Or.inl hxq
          · exact Or.inr (List.mem_erase_of_ne hxq |>.mpr hx),
      by
        simp only [List.length_append, List.length_cons, List.length_nil,
          List.length_erase_of_mem hq]
        have : 1 ≤ s.page_frames.length := List.length_pos.mpr
          (fun hnil => by rw [hnil] at hq; cases hq)
        omega,
      fun hnd => nodup_concat _ q (List.Nodup.erase q hnd)
        (fun hmem => absurd rfl ((List.Nodup.mem_erase_iff hnd).mp hmem).1)⟩)
    (fun s q rest hq hlt => by
      show lruInsert s q = _
      rw [lruInsert, if_neg hq, if_neg (by omega)])
    (fun s q rest hq hnd hfull hne => by
      cases heq : s.page_frames with
      | nil => exact absurd heq hne
      | cons a t =>
        have hnd2 : (a :: t).Nodup := heq ▸ hnd
        have hq2 : q ∉ a :: t := heq ▸ hq
        refine ⟨a, t ++ [q], List.mem_cons_self a t, ?_, ?_, ?_, ?_⟩
        · show lruInsert s q = _
          rw [lruInsert, if_neg hq, if_pos hfull, heq]
        · rw [toFinset_concat, List.toFinset_cons,
            Finset.erase_insert (fun hmem =>
              (List.nodup_cons.mp hnd2).1 (List.mem_toFinset.mp hmem))]
        · simp
        · exact nodup_concat t q (List.Nodup.of_cons hnd2)
            (fun hmem => hq2 (List.mem_cons_of_mem a hmem)))
    rs ⟨c, 0, []⟩ hc rfl List.nodup_nil (by show List.length [] ≤ c; simp)
  exact ⟨s', k, hrun, by simpa using hfc, hex⟩

/-- Claim C6, amended to capacity ≥ 1 (at capacity 0 every run crashes and no
fault count is produced): for every reference string, the FIFO and LRU fault
counts are both at least the OPT fault count with full lookahead. -/
theorem opt_optimal (rs : List Int) (c : Nat) (hc : 1 ≤ c) :
    ∃ kF kL kO, faultsFIFO rs c = Except.ok kF ∧ faultsLRU rs c = Except.ok kL ∧
      faultsOPT rs c = Except.ok kO ∧ kO ≤ kF ∧ kO ≤ kL := by
  obtain ⟨s1, kF, hrun1, hfc1, hex1⟩ := fifo_exec rs c hc
  obtain ⟨s2, kL, hrun2, hfc2, hex2⟩ := lru_exec rs c hc
  obtain ⟨s3, hrun3, hb3⟩ := exec_opt_min hc rs [] 0 kF List.nodup_nil
    (by show List.length [] ≤ c; simp) hex1
  obtain ⟨s4, hrun4, hb4⟩ := exec_opt_min hc rs [] 0 kL List.nodup_nil
    (by show List.length [] ≤ c; simp) hex2
  rw [hrun3] at hrun4
  cases hrun4
  refine ⟨kF, kL, s3.page_fault_count, ?_, ?_, ?_, by omega, by omega⟩
  · rw [faultsFIFO, hrun1]
    simp [Except.map, hfc1]
  · rw [faultsLRU, hrun2]
    simp [Except.map, hfc2]
  · rw [faultsOPT, hrun3]
    simp [Except.map]

/-- Claim C6 as literally stated (every capacity ≥ 0) fails at capacity 0: no
fault count is produced by any of the three drivers — each run raises while
evicting from an empty Frame Set. -/
theorem opt_optimal_cap0_counterexample :
    faultsFIFO [5] 0 = Except.error ⟨0, 1, []⟩ ∧
    faultsLRU [5] 0 = Except.error ⟨0, 1, []⟩ ∧
    faultsOPT [5] 0 = Except.error ⟨0, 1, []⟩ := by
  decide

theorem opt_optimal_witness :
    1 ≤ 2 ∧
    ∃ kF kL kO, faultsFIFO [1, 2, 3, 1] 2 = Except.ok kF ∧
      faultsLRU [1, 2, 3, 1] 2 = Except.ok kL ∧
      faultsOPT [1, 2, 3, 1] 2 = Except.ok kO ∧ kO ≤ kF ∧ kO ≤ kL :=
  ⟨by decide, opt_optimal [1, 2, 3, 1] 2 (by decide)⟩
